import Mathlib

/-!
# Verification of the translation-aware queryset layer (`nani/manager.py`)

Shallow embedding of `src/nani/manager.py` (django-hvad's translation
manager) and proofs of the specification's testable properties.

Modelling conventions:
* Python keyword-argument dictionaries become association lists
  `List (String × Val)`; the keys of a Python call are pairwise distinct.
* Python `None` becomes `Option.none`.
* Field values are `Val`: either an ordinary value (`Val.v`) or a
  reference to a shared-model row (`Val.ref`), as used for `master`.
* The underlying ORM (row storage, query execution) is an external
  collaborator; it is modelled by an explicit `DB` state and by the list
  of rows the executor yields.
-/

namespace Nani

/-- A field value in a keyword-argument map: an ordinary (string) value or a
reference to a shared-model row, identified by its id. -/
inductive Val where
  | v : String → Val
  | ref : Nat → Val
deriving DecidableEq, Repr

/-- Python truthiness of a field value: the empty string is falsy (as in
`if not language_code:` and `if self._language_code:`); every other value —
non-empty strings and model-instance references — is truthy. -/
def Val.truthy : Val → Bool
  | .v s => !s.isEmpty
  | .ref _ => true

/-- Association-list lookup with decidable key equality: the first entry whose
key matches, modelling Python dictionary access. -/
def alookup {α β : Type} [DecidableEq α] (k : α) : List (α × β) → Option β
  | [] => none
  | p :: ps => if p.1 = k then some p.2 else alookup k ps

/-- The keys of a keyword-argument map. -/
def keys {α β : Type} : List (α × β) → List α :=
  List.map Prod.fst

/-- Python's `str.startswith`: `startswith key p` is true when `p` is a prefix
of `key` (compared on the underlying character lists). -/
def startswith (key p : String) : Bool :=
  p.data.isPrefixOf key.data

/-- `FieldTranslator` of `manager.py`: the resolver object.  `shared_fields`
is `shared_model._meta.get_all_field_names() + ('pk',)`, `translated_fields`
is the translation model's field names, and `cache` is the dict contents the
object accumulates (the class subclasses `dict`). -/
structure FieldTranslator where
  shared_fields : List String
  translated_fields : List String
  cache : List (String × String)
deriving DecidableEq, Repr

/-- `FieldTranslator.__init__`: reads the shared model's field names, appends
the primary-key alias `pk`, reads the translation model's field names, and
starts with an empty dict. -/
def FieldTranslator.init (sharedModelFields transModelFields : List String) :
    FieldTranslator :=
  ⟨sharedModelFields ++ ["pk"], transModelFields, []⟩

/-- `FieldTranslator.build`: `key.startswith(self.shared_fields)` — Python's
`startswith` on a tuple is true when ANY member of the tuple is a prefix of
`key` — yields `'master__%s' % key`, otherwise the key is unchanged. -/
def FieldTranslator.build (ft : FieldTranslator) (key : String) : String :=
  if ft.shared_fields.any (fun p => startswith key p) then "master__" ++ key
  else key

/-- `FieldTranslator.get`: return the cached resolution when present,
otherwise build it, store it in the dict and return it. -/
def FieldTranslator.getc (ft : FieldTranslator) (key : String) :
    String × FieldTranslator :=
  match alookup key ft.cache with
  | some v => (v, ft)
  | none =>
      (ft.build key, { ft with cache := ft.cache ++ [(key, ft.build key)] })

/-- Cache coherence: every cached entry is the `build` of its key.  Holds
initially and is preserved by `getc`, so `get` always agrees with `build`. -/
def FieldTranslator.CacheWF (ft : FieldTranslator) : Prop :=
  ∀ p ∈ ft.cache, p.2 = ft.build p.1

/-! ## Filter-expression trees (`Q` objects and `R` markers) -/

/-- A boolean filter-expression tree.  `q cs` is a `Q` node with its
`children` list; a child is either a raw pass-through marker `R`
(from `nani.utils`), a `(field-name, value)` leaf, or a nested `Q` node. -/
inductive QTree where
  | R : Nat → QTree
  | leaf : String → Val → QTree
  | q : List QTree → QTree
deriving Repr

/-- Height of a filter-expression tree (used as recursion fuel below). -/
def QTree.height : QTree → Nat
  | .R _ => 0
  | .leaf _ _ => 0
  | .q cs => 1 + heightList cs
where
  /-- Maximum height of a list of trees. -/
  heightList : List QTree → Nat
    | [] => 0
    | t :: ts => max t.height (heightList ts)

/-- `TranslationMixin._recurse_q`, with explicit fuel for Lean's termination
checker (the source recursion terminates because rewriting preserves the
tree's shape, so `fuel = height` reproduces it exactly; see
`recurse_q_height_preserved` and `recurse_q_fuel_irrelevant`).  For each child
of a `Q` node: an `R` marker is appended untouched, a nested `Q` child is
recursed on TWICE (`newq = self._recurse_q(child)` followed by
`self._recurse_q(newq)`), and a `(key, value)` leaf has its key passed
through the resolver. -/
def recurse_q (ft : FieldTranslator) : Nat → QTree → QTree
  | 0, t => t
  | fuel + 1, t =>
    match t with
    | .q cs =>
        .q (cs.map (fun child =>
          match child with
          | .R tag => .R tag
          | .q cs2 => recurse_q ft fuel (recurse_q ft fuel (.q cs2))
          | .leaf key value => .leaf (ft.build key) value))
    | other => other

/-! ## The backing store (external ORM collaborator) -/

/-- The two backing tables, as the external ORM collaborator holds them:
shared rows are keyed by an id (`nextId` is the id the next `create` will
assign), translation rows are the keyword maps they were created from. -/
structure DB where
  nextId : Nat
  sharedRows : List (Nat × List (String × Val))
  transRows : List (List (String × Val))
deriving DecidableEq, Repr

/-- Modelled from the spec: `combine` (in `nani.utils`, outside `src/`) is
the Combined Instance Assembler — "given a translation record, merges
shared+translation attributes into one logical object", "exposing every
shared field plus every translation field".  The merged view resolves the
translation row's `master` reference in the shared table and exposes that
row's fields together with the translation row's own fields. -/
def combine (db : DB) (trans : List (String × Val)) : List (String × Val) :=
  (match alookup "master" trans with
   | some (Val.ref i) => (alookup i db.sharedRows).getD []
   | _ => []) ++ trans

/-- `_real_manager.create(**kwargs)`: appends one shared row carrying the
given fields, assigning it the next fresh id. -/
def realManagerCreate (db : DB) (kwargs : List (String × Val)) : DB × Nat :=
  ({ db with
      nextId := db.nextId + 1
      sharedRows := db.sharedRows ++ [(db.nextId, kwargs)] },
   db.nextId)

/-- `self.translations_manager.create(**tkwargs)`: appends one translation
row carrying the given fields. -/
def translationsCreate (db : DB) (tkwargs : List (String × Val)) :
    DB × List (String × Val) :=
  ({ db with transRows := db.transRows ++ [tkwargs] }, tkwargs)

/-! ## The translation-aware queryset (`TranslationMixin`) -/

/-- State of a `TranslationMixin` queryset.  The first two fields are the
model metadata (external collaborators `shared_model._meta` /
`model._meta`); the next four are the mixin's own attributes set in
`__init__`; the last two model the accumulated query state of the base
`QuerySet` (its WHERE tree and select-related paths).  A WHERE group is the
list of leaf field names one `filter` call contributed — the shape
`query.where.children` has when `get` scans it for a `language_code`
predicate. -/
structure QS where
  sharedModelFields : List String
  transModelFields : List String
  localFieldNames : Option (List String)
  fieldTranslator : Option FieldTranslator
  languageCode : Option Val
  realManager : Option Nat
  whereGroups : List (List String)
  selectRelated : List String
deriving DecidableEq, Repr

/-- `TranslationMixin.__init__`: the four mixin attributes start as `None`
(`real` is the mixin's `real=` argument); the base queryset starts with an
empty query. -/
def QS.init (sharedModelFields transModelFields : List String)
    (real : Option Nat) : QS :=
  ⟨sharedModelFields, transModelFields, none, none, none, real, [], []⟩

/-- Property `field_translator`: the cached `FieldTranslator`, built from the
manager's models on first use. -/
def QS.field_translator (qs : QS) : FieldTranslator :=
  match qs.fieldTranslator with
  | some ft => ft
  | none => FieldTranslator.init qs.sharedModelFields qs.transModelFields

/-- Property `shared_local_field_names`: the shared model's field names,
cached in `_local_field_names` on first use. -/
def QS.shared_local_field_names (qs : QS) : List String :=
  match qs.localFieldNames with
  | some l => l
  | none => qs.sharedModelFields

/-- `TranslationMixin._translate`: translate every keyword key through the
field translator (`get` agrees with `build` on the coherent cache, see
`FieldTranslator.getc_eq_build`) and every positional `Q` object through
`_recurse_q`. -/
def QS._translate (qs : QS) (args : List QTree)
    (kwargs : List (String × Val)) : List QTree × List (String × Val) :=
  (args.map (fun q => recurse_q qs.field_translator q.height q),
   kwargs.map (fun kv => (qs.field_translator.build kv.1, kv.2)))

/-- Leaf field names of a filter expression, as the base queryset's WHERE
tree records them once the expression is compiled (external collaborator;
constraint leaves carry their field's name). -/
def QTree.leafNames : QTree → List String
  | .R _ => []
  | .leaf key _ => [key]
  | .q cs => leafNamesList cs
where
  /-- Leaf field names of a list of trees. -/
  leafNamesList : List QTree → List String
    | [] => []
    | t :: ts => t.leafNames ++ leafNamesList ts

/-- `TranslationMixin.filter`: translate all arguments, then delegate to the
base `filter`, which appends one WHERE group holding the constraints of this
call. -/
def QS.filter (qs : QS) (args : List QTree)
    (kwargs : List (String × Val)) : QS :=
  let (newargs, newkwargs) := qs._translate args kwargs
  { qs with
      whereGroups := qs.whereGroups ++
        [(newargs.map QTree.leafNames).flatten ++ keys newkwargs] }

/-- `TranslationMixin.language`: `if not language_code:` defaults a missing
(`None`) or falsy (empty-string) language code to the ambient active
language (`get_language()`); the result is recorded as the queryset's
language scope and applied with `filter(language_code=...)`. -/
def QS.language (qs : QS) (language_code : Option Val) (amb : String) : QS :=
  let lc : Val :=
    match language_code with
    | some c => if c.truthy then c else Val.v amb
    | none => Val.v amb
  let qs1 := { qs with languageCode := some lc }
  qs1.filter [] [("language_code", lc)]

/-- `TranslationMixin.create`.  Splits the keyword map into translation-owned
(`tkwargs`) and shared-owned (the keys that remain) parts; enforces a
`language_code` on the translation part (explicit value, else the queryset's
language scope, else the ambient active language); allows a pre-existing
`master` only when no shared fields are given, raising a `RuntimeError`
otherwise; otherwise creates the shared row first and points `master` at it;
finally creates the translation row and returns `combine` of it.  State is
threaded explicitly: a raise leaves the store untouched. -/
def QS.create (qs : QS) (amb : String) (db : DB)
    (kwargs : List (String × Val)) : DB × Except String (List (String × Val)) :=
  let tkwargs := kwargs.filter
    (fun kv => decide (kv.1 ∉ qs.shared_local_field_names))
  let skwargs := kwargs.filter
    (fun kv => decide (kv.1 ∈ qs.shared_local_field_names))
  let tkwargs :=
    if "language_code" ∈ keys tkwargs then tkwargs
    else
      tkwargs ++ [("language_code",
        match qs.languageCode with
        | some lc => if lc.truthy then lc else Val.v amb
        | none => Val.v amb)]
  if "master" ∈ keys tkwargs then
    if ¬ skwargs.isEmpty then
      (db, .error
        "Cannot explicitly use a master (shared) instance and shared fields in create")
    else
      let (db1, transRow) := translationsCreate db tkwargs
      (db1, .ok (combine db1 transRow))
  else
    let (db1, sid) := realManagerCreate db skwargs
    let tkwargs := tkwargs ++ [("master", Val.ref sid)]
    let (db2, transRow) := translationsCreate db1 tkwargs
    (db2, .ok (combine db2 transRow))

/-- `TranslationMixin.get`, up to the delegated single-row lookup (an
external collaborator).  Translates the arguments, forces
`select_related('master')`, then: when a `language_code` key is present in
the translated keyword map, pops it and scopes with `language(value)`;
otherwise scans the existing WHERE tree's groups for a `language_code`
constraint and, when none is found, applies the default language scope.
Returns the queryset state the lookup executes against together with the
argument list and keyword map passed to `QuerySet.get`. -/
def QS.get (qs : QS) (amb : String) (args : List QTree)
    (kwargs : List (String × Val)) :
    QS × List QTree × List (String × Val) :=
  let (newargs, newkwargs) := qs._translate args kwargs
  let qs1 := { qs with selectRelated := qs.selectRelated ++ ["master"] }
  if "language_code" ∈ keys newkwargs then
    let language_code := alookup "language_code" newkwargs
    let rest := newkwargs.filter (fun kv => decide (kv.1 ≠ "language_code"))
    (qs1.language language_code amb, newargs, rest)
  else
    let found := qs1.whereGroups.any
      (fun g => !g.isEmpty && g.contains "language_code")
    if found then (qs1, newargs, newkwargs)
    else (qs1.language none amb, newargs, newkwargs)

/-- `TranslationMixin.order_by`: translate each field name, then delegate. -/
def QS.order_by (qs : QS) (field_names : List String) : List String :=
  field_names.map qs.field_translator.build

/-- `TranslationMixin._clone`: the base `_clone` builds a fresh instance of
the same class (running `__init__`, which resets the four mixin attributes)
around a copy of the query state; the override then copies the cached
field-name list, the field translator, the language scope and the real
manager reference from the original onto the clone. -/
def QS.baseClone (qs : QS) : QS :=
  { qs with
      localFieldNames := none
      fieldTranslator := none
      languageCode := none
      realManager := none }

/-- The `_clone` override itself. -/
def QS._clone (qs : QS) : QS :=
  let cloned := qs.baseClone
  { cloned with
      localFieldNames := qs.localFieldNames
      fieldTranslator := qs.fieldTranslator
      languageCode := qs.languageCode
      realManager := qs.realManager }

/-- `TranslationMixin.__iter__`: for each object the base queryset's
iterator yields, yield `combine(obj)`. -/
def QS.iter (db : DB) (rows : List (List (String × Val))) :
    List (List (String × Val)) :=
  rows.map (combine db)

/-- `TranslationMixin.__getitem__` delegates unchanged to the base
`QuerySet.__getitem__` (external ORM collaborator, Django ≤ 1.6 semantics):
a subscript served from an already-populated result cache returns the cached
raw row at that position (the cache is filled with raw rows by the base
iteration machinery); an uncached integer subscript evaluates a limited
clone — `list(self._clone())[0]` — and the clone, an instance of the same
mixin class, is consumed through the OVERRIDDEN iterator, so the combine
step is applied (`QS.iter`).  `rows` are the rows the executor yields at
that position range; `cache` is the result cache, when populated. -/
def QS.getitem (db : DB) (cache : Option (List (List (String × Val))))
    (rows : List (List (String × Val))) (item : Nat) :
    Option (List (String × Val)) :=
  match cache with
  | some c => c.get? item
  | none => (QS.iter db rows).get? item

/-- The explicitly unsupported operations: each raises
`NotImplementedError` immediately, whatever its arguments. -/
def QS.aggregate (_qs : QS) (_args : List Val)
    (_kwargs : List (String × Val)) : Except String Unit :=
  .error "NotImplementedError"

/-- `latest` — unsupported. -/
def QS.latest (_qs : QS) (_field_name : Option String) : Except String Unit :=
  .error "NotImplementedError"

/-- `in_bulk` — unsupported. -/
def QS.in_bulk (_qs : QS) (_id_list : List Nat) : Except String Unit :=
  .error "NotImplementedError"

/-- `delete` — unsupported. -/
def QS.delete (_qs : QS) : Except String Unit :=
  .error "NotImplementedError"

/-- `update` — unsupported. -/
def QS.update (_qs : QS) (_kwargs : List (String × Val)) : Except String Unit :=
  .error "NotImplementedError"

/-- `values` — unsupported. -/
def QS.values (_qs : QS) (_fields : List String) : Except String Unit :=
  .error "NotImplementedError"

/-- `values_list` — unsupported. -/
def QS.values_list (_qs : QS) (_fields : List String)
    (_kwargs : List (String × Val)) : Except String Unit :=
  .error "NotImplementedError"

/-- `dates` — unsupported. -/
def QS.dates (_qs : QS) (_field_name _kind _order : String) :
    Except String Unit :=
  .error "NotImplementedError"

/-- `exclude` — unsupported. -/
def QS.exclude (_qs : QS) (_args : List QTree)
    (_kwargs : List (String × Val)) : Except String Unit :=
  .error "NotImplementedError"

/-- `complex_filter` — unsupported. -/
def QS.complex_filter (_qs : QS) (_filter_obj : QTree) : Except String Unit :=
  .error "NotImplementedError"

/-- `annotate` — unsupported. -/
def QS.annotate (_qs : QS) (_args : List Val)
    (_kwargs : List (String × Val)) : Except String Unit :=
  .error "NotImplementedError"

/-- `reverse` — unsupported. -/
def QS.reverse (_qs : QS) : Except String Unit :=
  .error "NotImplementedError"

/-- `defer` — unsupported. -/
def QS.defer (_qs : QS) (_fields : List String) : Except String Unit :=
  .error "NotImplementedError"

/-- `only` — unsupported. -/
def QS.only (_qs : QS) (_fields : List String) : Except String Unit :=
  .error "NotImplementedError"

/-! ## Coherence of the resolver cache -/

theorem alookup_mem {α β : Type} [DecidableEq α] {k : α} {l : List (α × β)}
    {b : β} (h : alookup k l = some b) : (k, b) ∈ l := by
  induction l with
  | nil => simp [alookup] at h
  | cons p ps ih =>
      by_cases hk : p.1 = k
      · simp [alookup, hk] at h
        cases p
        simp_all
      · simp [alookup, hk] at h
        exact List.mem_cons_of_mem _ (ih h)

/-- On a coherent cache, `get` returns exactly what `build` returns. -/
theorem FieldTranslator.getc_eq_build (ft : FieldTranslator) (key : String)
    (h : ft.CacheWF) : (ft.getc key).1 = ft.build key := by
  unfold FieldTranslator.getc
  cases hc : alookup key ft.cache with
  | none => simp
  | some v =>
      simp only
      exact h (key, v) (alookup_mem hc)

/-- `getc` preserves cache coherence. -/
theorem FieldTranslator.getc_wf (ft : FieldTranslator) (key : String)
    (h : ft.CacheWF) : (ft.getc key).2.CacheWF := by
  unfold FieldTranslator.getc
  cases hc : alookup key ft.cache with
  | none =>
      intro p hp
      simp only [List.mem_append, List.mem_singleton] at hp
      rcases hp with hp | hp
      · exact h p hp
      · subst hp; rfl
  | some v => exact h

/-! ## Helper lemmas on association lists -/

theorem alookup_eq_none_iff {α β : Type} [DecidableEq α] (k : α)
    (l : List (α × β)) : alookup k l = none ↔ k ∉ keys l := by
  induction l with
  | nil => simp [alookup, keys]
  | cons p ps ih =>
      by_cases hk : p.1 = k
      · simp [alookup, hk, keys]
      · simp [alookup, hk, keys] at ih ⊢
        constructor
        · intro h
          exact ⟨fun he => hk he.symm, (ih.mp h)⟩
        · intro h
          exact ih.mpr h.2

theorem alookup_append {α β : Type} [DecidableEq α] (k : α)
    (l₁ l₂ : List (α × β)) :
    alookup k (l₁ ++ l₂) =
      match alookup k l₁ with
      | some v => some v
      | none => alookup k l₂ := by
  induction l₁ with
  | nil => simp [alookup]
  | cons p ps ih =>
      by_cases hk : p.1 = k
      · simp [alookup, hk]
      · simp [alookup, hk, ih]

theorem alookup_append_right {α β : Type} [DecidableEq α] (k : α)
    {l₁ : List (α × β)} (l₂ : List (α × β)) (h : k ∉ keys l₁) :
    alookup k (l₁ ++ l₂) = alookup k l₂ := by
  rw [alookup_append, (alookup_eq_none_iff k l₁).mpr h]

/-- Filtering with a predicate that keeps every entry keyed `k` does not
change the result of looking up `k`. -/
theorem alookup_filter_keep {β : Type} (k : String) (p : String × β → Bool)
    (l : List (String × β)) (hp : ∀ kv : String × β, kv.1 = k → p kv = true) :
    alookup k (l.filter p) = alookup k l := by
  induction l with
  | nil => simp
  | cons kv l ih =>
      by_cases hk : kv.1 = k
      · rw [List.filter_cons_of_pos (hp kv hk)]
        simp [alookup, hk]
      · by_cases hkeep : p kv = true
        · rw [List.filter_cons_of_pos hkeep]
          simp [alookup, hk, ih]
        · rw [List.filter_cons_of_neg (by simpa using hkeep)]
          simp [alookup, hk, ih]

theorem keys_filter_subset {α β : Type} (p : α × β → Bool)
    (l : List (α × β)) : ∀ k ∈ keys (l.filter p), k ∈ keys l := by
  intro k hk
  simp only [keys, List.mem_map] at hk ⊢
  obtain ⟨kv, hkv, rfl⟩ := hk
  exact ⟨kv, List.mem_of_mem_filter hkv, rfl⟩

theorem mem_keys_of_alookup {α β : Type} [DecidableEq α] {k : α}
    {l : List (α × β)} {v : β} (h : alookup k l = some v) : k ∈ keys l := by
  by_contra hmem
  rw [(alookup_eq_none_iff k l).mpr hmem] at h
  cases h

/-! ## Helper lemmas on the field translator -/

/-- `build` either leaves a key unchanged or prepends `master__`. -/
theorem FieldTranslator.build_cases (ft : FieldTranslator) (key : String) :
    ft.build key = key ∨ ft.build key = "master__" ++ key := by
  unfold FieldTranslator.build
  by_cases h : ft.shared_fields.any (fun p => startswith key p) = true
  · right; simp [h]
  · left; simp [h]

/-- No `master__`-prefixed name equals `language_code`. -/
theorem master_append_ne_language_code (k : String) :
    "master__" ++ k ≠ "language_code" := by
  intro h
  have h2 : ("master__" ++ k).data = "language_code".data :=
    congrArg String.data h
  have h3 : "master__".data ++ k.data = "language_code".data := by
    cases k
    exact h2
  have hp : "master__".data <+: "language_code".data := ⟨k.data, h3⟩
  have hnp : ¬ "master__".data <+: "language_code".data := by decide
  exact hnp hp

/-- When the resolver maps `language_code` to itself, it maps no other key
to `language_code`. -/
theorem FieldTranslator.build_eq_language_code_iff (ft : FieldTranslator)
    (hlc : ft.build "language_code" = "language_code") (k : String) :
    ft.build k = "language_code" ↔ k = "language_code" := by
  constructor
  · intro h
    rcases ft.build_cases k with hb | hb
    · rw [hb] at h; exact h
    · rw [hb] at h
      exact absurd h (master_append_ne_language_code k)
  · intro h
    subst h
    exact hlc

/-- A key every member of the set has as a prefix of itself: membership in
`shared_fields` forces the `master__` branch of `build`. -/
theorem FieldTranslator.build_of_mem (ft : FieldTranslator) {key : String}
    (h : key ∈ ft.shared_fields) : ft.build key = "master__" ++ key := by
  unfold FieldTranslator.build
  have : ft.shared_fields.any (fun p => startswith key p) = true := by
    refine List.any_eq_true.mpr ⟨key, h, ?_⟩
    simp [startswith, List.isPrefixOf_iff_prefix]
  simp [this]

/-! ## Faithfulness of the fuelled rewriter

The source's `_recurse_q` recursion terminates because rewriting preserves
the tree's shape; the two lemmas below justify the fuelled embedding: the
rewriter preserves height, and any fuel at least the height computes the
same tree, so `fuel = height` reproduces the source exactly. -/

/-- A member of a child list is no taller than the list's maximum height. -/
theorem height_le_heightList {c : QTree} {cs : List QTree} (h : c ∈ cs) :
    c.height ≤ QTree.height.heightList cs := by
  induction cs with
  | nil => cases h
  | cons d ds ih =>
      rcases List.mem_cons.mp h with rfl | h'
      · exact le_max_left _ _
      · exact le_trans (ih h') (le_max_right _ _)

/-- The rewriter preserves the shape, in particular the height, of the
tree, for every fuel. -/
theorem recurse_q_height_preserved (ft : FieldTranslator) :
    ∀ (fuel : Nat) (t : QTree), (recurse_q ft fuel t).height = t.height := by
  intro fuel
  induction fuel with
  | zero => intro t; rfl
  | succ fuel ih =>
      intro t
      cases t with
      | R tag => rfl
      | leaf k v => rfl
      | q cs =>
          show (QTree.q (cs.map _)).height = (QTree.q cs).height
          simp only [QTree.height]
          have : ∀ ds : List QTree,
              QTree.height.heightList (ds.map (fun child =>
                match child with
                | .R tag => .R tag
                | .q cs2 => recurse_q ft fuel (recurse_q ft fuel (.q cs2))
                | .leaf key value => .leaf (ft.build key) value))
              = QTree.height.heightList ds := by
            intro ds
            induction ds with
            | nil => rfl
            | cons d ds ihd =>
                simp only [List.map_cons, QTree.height.heightList, ihd]
                congr 1
                cases d with
                | R tag => rfl
                | leaf k v => rfl
                | q cs2 => rw [ih, ih]
          rw [this]

/-- Any fuel at least the tree's height computes the same result as fuel
exactly the height: the embedding does not depend on the fuel choice. -/
theorem recurse_q_fuel_irrelevant (ft : FieldTranslator) :
    ∀ (fuel : Nat) (t : QTree), t.height ≤ fuel →
      recurse_q ft fuel t = recurse_q ft t.height t := by
  intro fuel
  induction fuel using Nat.strong_induction_on with
  | _ fuel ih =>
      intro t ht
      match fuel, t with
      | 0, t =>
          have h0 : t.height = 0 := Nat.le_zero.mp ht
          rw [h0]
      | fuel + 1, .R tag =>
          rfl
      | fuel + 1, .leaf k v =>
          rfl
      | fuel + 1, .q cs =>
          have hfl : QTree.height.heightList cs ≤ fuel := by
            have : (QTree.q cs).height = 1 + QTree.height.heightList cs := rfl
            omega
          have hsucc : (QTree.q cs).height
              = QTree.height.heightList cs + 1 := by
            rw [QTree.height, Nat.add_comm]
          rw [hsucc]
          show QTree.q (cs.map _) = QTree.q (cs.map _)
          congr 1
          refine List.map_congr_left ?_
          intro child hchild
          cases child with
          | R tag => rfl
          | leaf k v => rfl
          | q cs2 =>
              simp only
              have h2 : (QTree.q cs2).height ≤ QTree.height.heightList cs :=
                height_le_heightList hchild
              have e1 : recurse_q ft fuel (QTree.q cs2)
                  = recurse_q ft (QTree.q cs2).height (QTree.q cs2) :=
                ih fuel (Nat.lt_succ_self _) _ (h2.trans hfl)
              have e2 : recurse_q ft (QTree.height.heightList cs) (QTree.q cs2)
                  = recurse_q ft (QTree.q cs2).height (QTree.q cs2) :=
                ih (QTree.height.heightList cs) (by omega) _ h2
              have hX : (recurse_q ft (QTree.q cs2).height (QTree.q cs2)).height
                  = (QTree.q cs2).height := recurse_q_height_preserved ft _ _
              have e3 : recurse_q ft fuel
                    (recurse_q ft (QTree.q cs2).height (QTree.q cs2))
                  = recurse_q ft (QTree.q cs2).height
                    (recurse_q ft (QTree.q cs2).height (QTree.q cs2)) := by
                have := ih fuel (Nat.lt_succ_self _)
                  (recurse_q ft (QTree.q cs2).height (QTree.q cs2))
                  (by rw [hX]; exact h2.trans hfl)
                rw [this, hX]
              have e4 : recurse_q ft (QTree.height.heightList cs)
                    (recurse_q ft (QTree.q cs2).height (QTree.q cs2))
                  = recurse_q ft (QTree.q cs2).height
                    (recurse_q ft (QTree.q cs2).height (QTree.q cs2)) := by
                have := ih (QTree.height.heightList cs) (by omega)
                  (recurse_q ft (QTree.q cs2).height (QTree.q cs2))
                  (by rw [hX]; exact h2)
                rw [this, hX]
              rw [e1, e2, e3, e4]

/-! ## Claim C1 — the Field Name Resolver -/

/-- C1, counterexample.  The claim says every name outside the shared
model's full field-name set is returned unchanged.  With shared field `name`,
the translation-only name `namex` is NOT in the set
`('name', 'pk')`, yet `build` returns `master__namex`, because the source
tests `key.startswith(self.shared_fields)` — a string-prefix test over the
tuple — rather than membership. -/
theorem build_membership_counterexample :
    "namex" ∉ (FieldTranslator.init ["name"] ["title"]).shared_fields ∧
    (FieldTranslator.init ["name"] ["title"]).build "namex" = "master__namex" ∧
    "master__namex" ≠ "namex" := by
  decide

/-- C1 (amended): the resolver returns `master__f` for every name `f` that
has a member of the shared model's full field-name set (including the
primary-key alias `pk`) as a string prefix — in particular for every member
of the set itself, and `pk` always resolves to `master__pk` — and returns a
name unchanged exactly when no member of the set is a prefix of it. -/
theorem fieldTranslator_resolution_amended (sn tn : List String) (k : String) :
    (k ∈ (FieldTranslator.init sn tn).shared_fields →
      (FieldTranslator.init sn tn).build k = "master__" ++ k) ∧
    (FieldTranslator.init sn tn).build "pk" = "master__pk" ∧
    ((∀ p ∈ (FieldTranslator.init sn tn).shared_fields, ¬ startswith k p) →
      (FieldTranslator.init sn tn).build k = k) ∧
    ((∃ p ∈ (FieldTranslator.init sn tn).shared_fields, startswith k p) →
      (FieldTranslator.init sn tn).build k = "master__" ++ k) := by
  refine ⟨fun h => FieldTranslator.build_of_mem _ h, ?_, ?_, ?_⟩
  · exact FieldTranslator.build_of_mem _ (by simp [FieldTranslator.init])
  · intro h
    unfold FieldTranslator.build
    have : (FieldTranslator.init sn tn).shared_fields.any
        (fun p => startswith k p) = false := by
      simp only [List.any_eq_false]
      intro p hp
      simpa using h p hp
    simp [this]
  · intro ⟨p, hp, hpre⟩
    unfold FieldTranslator.build
    have : (FieldTranslator.init sn tn).shared_fields.any
        (fun p => startswith k p) = true :=
      List.any_eq_true.mpr ⟨p, hp, hpre⟩
    simp [this]

/-- C1, witness: the amended theorem applied at a concrete translator. -/
theorem fieldTranslator_resolution_amended_witness :
    (FieldTranslator.init ["name"] ["title"]).build "name" = "master__name" ∧
    (FieldTranslator.init ["name"] ["title"]).build "pk" = "master__pk" ∧
    (FieldTranslator.init ["name"] ["title"]).build "title" = "title" :=
  ⟨(fieldTranslator_resolution_amended ["name"] ["title"] "name").1 (by decide),
   (fieldTranslator_resolution_amended ["name"] ["title"] "pk").2.1,
   (fieldTranslator_resolution_amended ["name"] ["title"] "title").2.2.1
     (by decide)⟩

/-! ## Claim C2 — the Expression Rewriter on nested trees -/

/-- C2: the code violates the claim.  On the nested tree
`Q(Q(mango=1))` with shared field set `('ma', 'pk')`, `_recurse_q` passes
the nested leaf's field name through the resolver TWICE — the source binds
`newq = self._recurse_q(child)` and then appends `self._recurse_q(newq)` —
producing `master__master__mango` where a single resolution gives
`master__mango`.  (Fuel `2` is the height of the tree, reproducing the
source recursion exactly.) -/
theorem recurse_q_double_resolution :
    recurse_q (FieldTranslator.init ["ma"] ["mango"]) 2
        (QTree.q [QTree.q [QTree.leaf "mango" (Val.v "1")]])
      = QTree.q [QTree.q [QTree.leaf "master__master__mango" (Val.v "1")]] ∧
    (FieldTranslator.init ["ma"] ["mango"]).build "mango" = "master__mango" ∧
    "master__master__mango" ≠ "master__mango" :=
  ⟨rfl, by decide, by decide⟩

/-! ## Claim C3 — create with a pre-existing master -/

/-- C3: when `create` is given an explicit pre-existing `master` reference
(and `master` is, as in any real schema, not itself a shared field name),
then: if at least one shared-owned field is also supplied, `create` raises
the usage error immediately and the store is untouched (no row of either
kind is created); if only translation-owned fields are supplied, no new
shared row is created (the shared table and the id counter are unchanged)
and the call succeeds. -/
theorem create_master_exclusive (qs : QS) (amb : String) (db : DB)
    (kwargs : List (String × Val))
    (hms : "master" ∉ qs.shared_local_field_names)
    (hmem : "master" ∈ keys kwargs) :
    ((∃ kv ∈ kwargs, kv.1 ∈ qs.shared_local_field_names) →
      (qs.create amb db kwargs).1 = db ∧
      (qs.create amb db kwargs).2 = .error
        "Cannot explicitly use a master (shared) instance and shared fields in create") ∧
    ((∀ kv ∈ kwargs, kv.1 ∉ qs.shared_local_field_names) →
      (qs.create amb db kwargs).1.sharedRows = db.sharedRows ∧
      (qs.create amb db kwargs).1.nextId = db.nextId ∧
      ∃ c, (qs.create amb db kwargs).2 = .ok c) := by
  obtain ⟨kv, hkv, hfst⟩ := List.mem_map.mp hmem
  have hkeep : kv ∈ kwargs.filter
      (fun kv => decide (kv.1 ∉ qs.shared_local_field_names)) :=
    List.mem_filter.mpr ⟨hkv, by simpa [hfst] using hms⟩
  have hmt0 : "master" ∈ keys (kwargs.filter
      (fun kv => decide (kv.1 ∉ qs.shared_local_field_names))) :=
    List.mem_map.mpr ⟨kv, hkeep, hfst⟩
  constructor
  · intro ⟨kv', hkv', hsh⟩
    have hne : ¬ (kwargs.filter
        (fun kv => decide (kv.1 ∈ qs.shared_local_field_names))).isEmpty := by
      have : kv' ∈ kwargs.filter
          (fun kv => decide (kv.1 ∈ qs.shared_local_field_names)) :=
        List.mem_filter.mpr ⟨hkv', by simpa using hsh⟩
      intro h
      rw [List.isEmpty_iff] at h
      rw [h] at this
      cases this
    simp only [QS.create]
    by_cases hlc : "language_code" ∈ keys (kwargs.filter
        (fun kv => decide (kv.1 ∉ qs.shared_local_field_names)))
    · rw [if_pos hlc, if_pos hmt0, if_pos hne]
      exact ⟨rfl, rfl⟩
    · rw [if_neg hlc, if_pos (by simp [keys] at hmt0 ⊢; exact hmt0),
        if_pos hne]
      exact ⟨rfl, rfl⟩
  · intro hall
    have hse : (kwargs.filter
        (fun kv => decide (kv.1 ∈ qs.shared_local_field_names))).isEmpty := by
      rw [List.isEmpty_iff, List.filter_eq_nil_iff]
      intro kv' hkv'
      simpa using hall kv' hkv'
    simp only [QS.create]
    by_cases hlc : "language_code" ∈ keys (kwargs.filter
        (fun kv => decide (kv.1 ∉ qs.shared_local_field_names)))
    · rw [if_pos hlc, if_pos hmt0, if_neg (by simp [hse])]
      exact ⟨rfl, rfl, _, rfl⟩
    · rw [if_neg hlc, if_pos (by simp [keys] at hmt0 ⊢; exact hmt0),
        if_neg (by simp [hse])]
      exact ⟨rfl, rfl, _, rfl⟩

/-- C3, witness: with shared field `name`, `create(master=..., name=...)`
raises and leaves the store untouched, while `create(master=..., title=...)`
creates no shared row. -/
theorem create_master_exclusive_witness :
    ((QS.init ["name"] ["title", "language_code", "master"] (some 0)).create
        "en" ⟨7, [], []⟩ [("master", Val.ref 3), ("name", Val.v "x")]).1
      = ⟨7, [], []⟩ ∧
    ((QS.init ["name"] ["title", "language_code", "master"] (some 0)).create
        "en" ⟨7, [], []⟩
        [("master", Val.ref 3), ("title", Val.v "y")]).1.sharedRows = [] := by
  refine ⟨((create_master_exclusive _ "en" ⟨7, [], []⟩ _ (by decide)
      (by decide)).1 ⟨("name", Val.v "x"), by decide, by decide⟩).1, ?_⟩
  exact ((create_master_exclusive _ "en" ⟨7, [], []⟩ _ (by decide)
      (by decide)).2 (by decide)).1

/-! ## Claim C4 — create with no explicit master -/

/-- C4: a `create` call without an explicit `master` reference (on a store
whose next id is fresh) creates exactly one shared row carrying exactly the
shared-owned field values, then exactly one translation row that carries
every translation-owned field value and whose `master` points at the new
shared row, and returns the Combined Instance of that translation row, which
exposes every shared-owned and every translation-owned field of the call. -/
theorem create_two_rows (qs : QS) (amb : String) (db : DB)
    (kwargs : List (String × Val))
    (hm : "master" ∉ keys kwargs)
    (hfresh : ∀ p ∈ db.sharedRows, p.1 ≠ db.nextId) :
    ∃ tk,
      (qs.create amb db kwargs).1.sharedRows
        = db.sharedRows ++ [(db.nextId, kwargs.filter
            (fun kv => decide (kv.1 ∈ qs.shared_local_field_names)))] ∧
      (qs.create amb db kwargs).1.transRows = db.transRows ++ [tk] ∧
      alookup "master" tk = some (Val.ref db.nextId) ∧
      (∀ kv ∈ kwargs, kv.1 ∉ qs.shared_local_field_names → kv ∈ tk) ∧
      (qs.create amb db kwargs).2
        = .ok (combine (qs.create amb db kwargs).1 tk) ∧
      (∀ kv ∈ kwargs, kv ∈ combine (qs.create amb db kwargs).1 tk) := by
  have hmt0 : "master" ∉ keys (kwargs.filter
      (fun kv => decide (kv.1 ∉ qs.shared_local_field_names))) :=
    fun h => hm (keys_filter_subset _ kwargs "master" h)
  have hnid : db.nextId ∉ keys db.sharedRows := by
    simp only [keys, List.mem_map]
    rintro ⟨p, hp, hEq⟩
    exact hfresh p hp hEq
  have hlook : alookup db.nextId (db.sharedRows ++ [(db.nextId, kwargs.filter
      (fun kv => decide (kv.1 ∈ qs.shared_local_field_names)))])
      = some (kwargs.filter
        (fun kv => decide (kv.1 ∈ qs.shared_local_field_names))) := by
    rw [alookup_append_right _ _ hnid]
    simp [alookup]
  by_cases hlc : "language_code" ∈ keys (kwargs.filter
      (fun kv => decide (kv.1 ∉ qs.shared_local_field_names)))
  · refine ⟨kwargs.filter (fun kv => decide (kv.1 ∉ qs.shared_local_field_names))
      ++ [("master", Val.ref db.nextId)], ?_⟩
    have hmt1 : "master" ∉ keys ((kwargs.filter
        (fun kv => decide (kv.1 ∉ qs.shared_local_field_names)))
        ++ [("master", Val.ref db.nextId)]).dropLast := by
      simpa using hmt0
    have hmaster : alookup "master" ((kwargs.filter
        (fun kv => decide (kv.1 ∉ qs.shared_local_field_names)))
        ++ [("master", Val.ref db.nextId)]) = some (Val.ref db.nextId) := by
      rw [alookup_append_right _ _ hmt0]
      simp [alookup]
    have hcomb : combine
        ⟨db.nextId + 1,
         db.sharedRows ++ [(db.nextId, kwargs.filter
           (fun kv => decide (kv.1 ∈ qs.shared_local_field_names)))],
         db.transRows ++ [(kwargs.filter
           (fun kv => decide (kv.1 ∉ qs.shared_local_field_names)))
           ++ [("master", Val.ref db.nextId)]]⟩
        ((kwargs.filter (fun kv => decide (kv.1 ∉ qs.shared_local_field_names)))
          ++ [("master", Val.ref db.nextId)])
        = (kwargs.filter (fun kv => decide (kv.1 ∈ qs.shared_local_field_names)))
          ++ ((kwargs.filter (fun kv => decide (kv.1 ∉ qs.shared_local_field_names)))
          ++ [("master", Val.ref db.nextId)]) := by
      unfold combine
      rw [hmaster]
      simp only [hlook, Option.getD_some]
    simp only [QS.create, if_pos hlc, if_neg hmt0, realManagerCreate,
      translationsCreate]
    refine ⟨trivial, trivial, hmaster, ?_, trivial, ?_⟩
    · intro kv hkv hns
      exact List.mem_append_left _
        (List.mem_filter.mpr ⟨hkv, by simpa using hns⟩)
    · intro kv hkv
      rw [hcomb]
      by_cases hsh : kv.1 ∈ qs.shared_local_field_names
      · exact List.mem_append_left _
          (List.mem_filter.mpr ⟨hkv, by simpa using hsh⟩)
      · exact List.mem_append_right _ (List.mem_append_left _
          (List.mem_filter.mpr ⟨hkv, by simpa using hsh⟩))
  · refine ⟨((kwargs.filter (fun kv => decide (kv.1 ∉ qs.shared_local_field_names)))
      ++ [("language_code",
        match qs.languageCode with
        | some lc => if lc.truthy then lc else Val.v amb
        | none => Val.v amb)])
      ++ [("master", Val.ref db.nextId)], ?_⟩
    have hmt1 : "master" ∉ keys ((kwargs.filter
        (fun kv => decide (kv.1 ∉ qs.shared_local_field_names)))
        ++ [("language_code",
          match qs.languageCode with
          | some lc => if lc.truthy then lc else Val.v amb
          | none => Val.v amb)]) := by
      simp only [keys, List.map_append] at hmt0 ⊢
      simp at hmt0 ⊢
      exact hmt0
    have hmaster : alookup "master" (((kwargs.filter
        (fun kv => decide (kv.1 ∉ qs.shared_local_field_names)))
        ++ [("language_code",
          match qs.languageCode with
          | some lc => if lc.truthy then lc else Val.v amb
          | none => Val.v amb)])
        ++ [("master", Val.ref db.nextId)]) = some (Val.ref db.nextId) := by
      rw [alookup_append_right _ _ hmt1]
      simp [alookup]
    have hcomb : combine
        ⟨db.nextId + 1,
         db.sharedRows ++ [(db.nextId, kwargs.filter
           (fun kv => decide (kv.1 ∈ qs.shared_local_field_names)))],
         db.transRows ++ [((kwargs.filter
           (fun kv => decide (kv.1 ∉ qs.shared_local_field_names)))
           ++ [("language_code",
             match qs.languageCode with
             | some lc => if lc.truthy then lc else Val.v amb
             | none => Val.v amb)])
           ++ [("master", Val.ref db.nextId)]]⟩
        (((kwargs.filter (fun kv => decide (kv.1 ∉ qs.shared_local_field_names)))
          ++ [("language_code",
            match qs.languageCode with
            | some lc => if lc.truthy then lc else Val.v amb
            | none => Val.v amb)])
          ++ [("master", Val.ref db.nextId)])
        = (kwargs.filter (fun kv => decide (kv.1 ∈ qs.shared_local_field_names)))
          ++ (((kwargs.filter (fun kv => decide (kv.1 ∉ qs.shared_local_field_names)))
          ++ [("language_code",
            match qs.languageCode with
            | some lc => if lc.truthy then lc else Val.v amb
            | none => Val.v amb)])
          ++ [("master", Val.ref db.nextId)]) := by
      unfold combine
      rw [hmaster]
      simp only [hlook, Option.getD_some]
    simp only [QS.create, if_neg hlc, if_neg hmt1, realManagerCreate,
      translationsCreate]
    refine ⟨trivial, trivial, hmaster, ?_, trivial, ?_⟩
    · intro kv hkv hns
      exact List.mem_append_left _ (List.mem_append_left _
        (List.mem_filter.mpr ⟨hkv, by simpa using hns⟩))
    · intro kv hkv
      rw [hcomb]
      by_cases hsh : kv.1 ∈ qs.shared_local_field_names
      · exact List.mem_append_left _
          (List.mem_filter.mpr ⟨hkv, by simpa using hsh⟩)
      · exact List.mem_append_right _ (List.mem_append_left _
          (List.mem_append_left _
            (List.mem_filter.mpr ⟨hkv, by simpa using hsh⟩)))

/-- C4, witness: `create(name=X, title=Y)` with shared field `name` on an
empty store. -/
theorem create_two_rows_witness :
    ∃ tk,
      ((QS.init ["name"] ["title", "language_code", "master"] (some 0)).create
          "en" ⟨0, [], []⟩ [("name", Val.v "X"), ("title", Val.v "Y")]).1.sharedRows
        = [] ++ [(0, [("name", Val.v "X"), ("title", Val.v "Y")].filter
            (fun kv => decide (kv.1 ∈ (QS.init ["name"]
              ["title", "language_code", "master"]
              (some 0)).shared_local_field_names)))] ∧
      ((QS.init ["name"] ["title", "language_code", "master"] (some 0)).create
          "en" ⟨0, [], []⟩ [("name", Val.v "X"), ("title", Val.v "Y")]).1.transRows
        = [] ++ [tk] ∧
      alookup "master" tk = some (Val.ref 0) ∧
      (∀ kv ∈ [("name", Val.v "X"), ("title", Val.v "Y")],
        kv.1 ∉ (QS.init ["name"] ["title", "language_code", "master"]
          (some 0)).shared_local_field_names → kv ∈ tk) ∧
      ((QS.init ["name"] ["title", "language_code", "master"] (some 0)).create
          "en" ⟨0, [], []⟩ [("name", Val.v "X"), ("title", Val.v "Y")]).2
        = .ok (combine ((QS.init ["name"] ["title", "language_code", "master"]
            (some 0)).create "en" ⟨0, [], []⟩
            [("name", Val.v "X"), ("title", Val.v "Y")]).1 tk) ∧
      (∀ kv ∈ [("name", Val.v "X"), ("title", Val.v "Y")],
        kv ∈ combine ((QS.init ["name"] ["title", "language_code", "master"]
          (some 0)).create "en" ⟨0, [], []⟩
          [("name", Val.v "X"), ("title", Val.v "Y")]).1 tk) :=
  create_two_rows (QS.init ["name"] ["title", "language_code", "master"]
    (some 0)) "en" ⟨0, [], []⟩ [("name", Val.v "X"), ("title", Val.v "Y")]
    (by decide) (by decide)

/-! ## Claim C5 — create's language_code default chain -/

/-- The lookup form of `create`'s `language_code` computation: whatever
translation row a `create` call appends carries the explicitly given value
when one is present, else the scope's value when the scope is truthy, else
the ambient active language.  (`language_code` is a translation-model
field, so it is not among the shared model's field names.) -/
theorem create_language_code_lookup (qs : QS) (amb : String) (db : DB)
    (kwargs : List (String × Val))
    (hshared : "language_code" ∉ qs.shared_local_field_names) :
    ∀ tk, (qs.create amb db kwargs).1.transRows = db.transRows ++ [tk] →
      alookup "language_code" tk =
        (match alookup "language_code" kwargs with
         | some c => some c
         | none => some (match qs.languageCode with
             | some lc => if lc.truthy then lc else Val.v amb
             | none => Val.v amb)) := by
  intro tk htk
  have hfilt : alookup "language_code" (kwargs.filter
      (fun kv => decide (kv.1 ∉ qs.shared_local_field_names)))
      = alookup "language_code" kwargs :=
    alookup_filter_keep _ _ kwargs (fun kv hkv => by simp [hkv, hshared])
  cases hA : alookup "language_code" kwargs with
  | some c =>
      have ht0 : alookup "language_code" (kwargs.filter
          (fun kv => decide (kv.1 ∉ qs.shared_local_field_names))) = some c := by
        rw [hfilt, hA]
      have hmem0 : "language_code" ∈ keys (kwargs.filter
          (fun kv => decide (kv.1 ∉ qs.shared_local_field_names))) :=
        mem_keys_of_alookup ht0
      simp only [QS.create, if_pos hmem0, realManagerCreate,
        translationsCreate] at htk
      by_cases hm : "master" ∈ keys (kwargs.filter
          (fun kv => decide (kv.1 ∉ qs.shared_local_field_names)))
      · rw [if_pos hm] at htk
        by_cases hse : (kwargs.filter
            (fun kv => decide (kv.1 ∈ qs.shared_local_field_names))).isEmpty
        · rw [if_neg (by simp [hse])] at htk
          have htkeq := List.append_cancel_left htk
          simp only [List.cons.injEq, and_true] at htkeq
          rw [← htkeq, ht0]
        · rw [if_pos (by simp [hse])] at htk
          simp at htk
      · rw [if_neg hm] at htk
        have htkeq := List.append_cancel_left htk
        simp only [List.cons.injEq, and_true] at htkeq
        rw [← htkeq, alookup_append, ht0]
  | none =>
      have ht0 : alookup "language_code" (kwargs.filter
          (fun kv => decide (kv.1 ∉ qs.shared_local_field_names))) = none := by
        rw [hfilt, hA]
      have hmem0 : "language_code" ∉ keys (kwargs.filter
          (fun kv => decide (kv.1 ∉ qs.shared_local_field_names))) :=
        (alookup_eq_none_iff _ _).mp ht0
      have ht1 : alookup "language_code" ((kwargs.filter
          (fun kv => decide (kv.1 ∉ qs.shared_local_field_names)))
          ++ [("language_code",
            match qs.languageCode with
            | some lc => if lc.truthy then lc else Val.v amb
            | none => Val.v amb)])
          = some (match qs.languageCode with
            | some lc => if lc.truthy then lc else Val.v amb
            | none => Val.v amb) := by
        rw [alookup_append_right _ _ hmem0]
        simp [alookup]
      simp only [QS.create, if_neg hmem0, realManagerCreate,
        translationsCreate] at htk
      by_cases hm : "master" ∈ keys ((kwargs.filter
          (fun kv => decide (kv.1 ∉ qs.shared_local_field_names)))
          ++ [("language_code",
            match qs.languageCode with
            | some lc => if lc.truthy then lc else Val.v amb
            | none => Val.v amb)])
      · rw [if_pos hm] at htk
        by_cases hse : (kwargs.filter
            (fun kv => decide (kv.1 ∈ qs.shared_local_field_names))).isEmpty
        · rw [if_neg (by simp [hse])] at htk
          have htkeq := List.append_cancel_left htk
          simp only [List.cons.injEq, and_true] at htkeq
          rw [← htkeq, ht1]
        · rw [if_pos (by simp [hse])] at htk
          simp at htk
      · rw [if_neg hm] at htk
        have htkeq := List.append_cancel_left htk
        simp only [List.cons.injEq, and_true] at htkeq
        rw [← htkeq, alookup_append, ht1]

/-- C5, counterexample.  The claim's middle level reads "else the Query
Builder's current language scope if set"; the source instead tests
`if self._language_code:` — Python truthiness — so a scope that IS set but
holds the falsy empty string is skipped.  With scope `''` and ambient `en`,
the created translation row carries `en`, not the scope's `''`. -/
theorem create_empty_scope_counterexample :
    ((⟨["name"], ["title", "language_code", "master"], none, none,
        some (Val.v ""), some 0, [], []⟩ : QS).create "en" ⟨0, [], []⟩
        [("title", Val.v "Y")]).1.transRows
      = [[("title", Val.v "Y"), ("language_code", Val.v "en"),
          ("master", Val.ref 0)]] ∧
    Val.v "en" ≠ Val.v "" := by
  decide

/-- C5 (amended): the `language_code` of the created translation row
follows the three-level chain with the scope level read as the source's
truthiness test: the explicitly given `language_code` value if present,
else the Query Builder's current language scope if it holds a truthy
(non-empty) code — a scope holding the empty string counts as unset — else
the ambient active language. -/
theorem create_language_code_chain (qs : QS) (amb : String) (db : DB)
    (kwargs : List (String × Val))
    (hshared : "language_code" ∉ qs.shared_local_field_names) :
    ∀ tk, (qs.create amb db kwargs).1.transRows = db.transRows ++ [tk] →
      (∀ c, alookup "language_code" kwargs = some c →
        alookup "language_code" tk = some c) ∧
      (alookup "language_code" kwargs = none →
        ∀ lc, qs.languageCode = some lc → lc.truthy = true →
          alookup "language_code" tk = some lc) ∧
      (alookup "language_code" kwargs = none →
        (qs.languageCode = none ∨
          ∃ lc, qs.languageCode = some lc ∧ lc.truthy = false) →
        alookup "language_code" tk = some (Val.v amb)) := by
  intro tk htk
  have h := create_language_code_lookup qs amb db kwargs hshared tk htk
  refine ⟨?_, ?_, ?_⟩
  · intro c hc
    rw [h, hc]
  · intro hc lc hlc htr
    rw [h, hc, hlc]
    simp [htr]
  · intro hc hor
    rw [h, hc]
    rcases hor with hn | ⟨lc, hlc, hf⟩
    · rw [hn]
    · rw [hlc]
      simp [hf]

/-- C5, witness: no explicit `language_code`, truthy scope `de`, ambient
`en` — the created translation row carries `de`; the amended theorem
applied concretely. -/
theorem create_language_code_chain_witness :
    alookup "language_code"
        [("title", Val.v "Y"), ("language_code", Val.v "de"),
         ("master", Val.ref 0)]
      = some (Val.v "de") :=
  (create_language_code_chain
      (⟨["name"], ["title", "language_code", "master"], none, none,
        some (Val.v "de"), some 0, [], []⟩ : QS) "en" ⟨0, [], []⟩
      [("title", Val.v "Y")] (by decide)
      [("title", Val.v "Y"), ("language_code", Val.v "de"),
       ("master", Val.ref 0)] (by decide)).2.1 (by decide) (Val.v "de") rfl
    (by decide)

/-! ## Claim C6 — get's language scoping -/

/-- When the resolver maps `language_code` to itself, translating a keyword
map leaves the result of looking up `language_code` unchanged. -/
theorem alookup_map_build (ft : FieldTranslator)
    (hlc : ft.build "language_code" = "language_code")
    (kwargs : List (String × Val)) :
    alookup "language_code" (kwargs.map (fun kv => (ft.build kv.1, kv.2)))
      = alookup "language_code" kwargs := by
  induction kwargs with
  | nil => rfl
  | cons kv l ih =>
      by_cases hk : kv.1 = "language_code"
      · simp [alookup, hk, hlc]
      · have hb : ft.build kv.1 ≠ "language_code" := fun h =>
          hk ((ft.build_eq_language_code_iff hlc kv.1).mp h)
        simp [alookup, hk, hb, ih]

/-- C6, counterexample.  The claim says a present `language_code` keyword
scopes execution to that language, overriding the ambient language, for
every value; but `language()` tests `if not language_code:` — Python
truthiness — so the popped empty string falls through to the ambient
language: under ambient `en`, `get(language_code='')` scopes to `en`, not
to `''`. -/
theorem get_empty_language_counterexample :
    ((QS.init ["name"] ["title", "language_code", "master"] (some 0)).get
        "en" [] [("language_code", Val.v "")]).1.languageCode
      = some (Val.v "en") ∧
    some (Val.v "en") ≠ some (Val.v "") := by
  decide

/-- C6 (amended): on a queryset whose resolver leaves `language_code`
unqualified (no shared field name is a prefix of it — true of any real
schema): a truthy (non-empty) `language_code` keyword scopes execution to
that language (overriding the ambient language) and is removed from the
keyword map `get` executes; a falsy (empty-string) keyword is likewise
removed but scopes to the ambient language; and with no `language_code`
keyword and no `language_code` predicate in any group of the existing
filter tree, `get` applies the default (ambient active) language scope. -/
theorem get_language_scoping (qs : QS) (amb : String) (args : List QTree)
    (kwargs : List (String × Val))
    (hlc : qs.field_translator.build "language_code" = "language_code") :
    (∀ c : Val, alookup "language_code" kwargs = some c → c.truthy = true →
      ((qs.get amb args kwargs).1.languageCode = some c ∧
       "language_code" ∉ keys (qs.get amb args kwargs).2.2)) ∧
    (∀ c : Val, alookup "language_code" kwargs = some c → c.truthy = false →
      ((qs.get amb args kwargs).1.languageCode = some (Val.v amb) ∧
       "language_code" ∉ keys (qs.get amb args kwargs).2.2)) ∧
    (alookup "language_code" kwargs = none →
      (∀ g ∈ qs.whereGroups, "language_code" ∉ g) →
      (qs.get amb args kwargs).1.languageCode = some (Val.v amb)) := by
  have hmap := alookup_map_build qs.field_translator hlc kwargs
  have hremoved : ∀ hmem : "language_code" ∈ keys (kwargs.map
      (fun kv => (qs.field_translator.build kv.1, kv.2))),
      "language_code" ∉ keys (qs.get amb args kwargs).2.2 := by
    intro hmem
    simp only [QS.get, QS._translate, if_pos hmem]
    simp only [keys, List.mem_map]
    rintro ⟨kv, hkv, hEq⟩
    have := List.mem_filter.mp hkv
    simp [hEq] at this
  refine ⟨?_, ?_, ?_⟩
  · intro c hc htr
    have hsome : alookup "language_code" (kwargs.map
        (fun kv => (qs.field_translator.build kv.1, kv.2))) = some c := by
      rw [hmap, hc]
    have hmem : "language_code" ∈ keys (kwargs.map
        (fun kv => (qs.field_translator.build kv.1, kv.2))) :=
      mem_keys_of_alookup hsome
    refine ⟨?_, hremoved hmem⟩
    simp only [QS.get, QS._translate, if_pos hmem, QS.language, QS.filter,
      hsome]
    simp [htr]
  · intro c hc htr
    have hsome : alookup "language_code" (kwargs.map
        (fun kv => (qs.field_translator.build kv.1, kv.2))) = some c := by
      rw [hmap, hc]
    have hmem : "language_code" ∈ keys (kwargs.map
        (fun kv => (qs.field_translator.build kv.1, kv.2))) :=
      mem_keys_of_alookup hsome
    refine ⟨?_, hremoved hmem⟩
    simp only [QS.get, QS._translate, if_pos hmem, QS.language, QS.filter,
      hsome]
    simp [htr]
  · intro hnone hgroups
    have hnone2 : alookup "language_code" (kwargs.map
        (fun kv => (qs.field_translator.build kv.1, kv.2))) = none := by
      rw [hmap, hnone]
    have hmem : "language_code" ∉ keys (kwargs.map
        (fun kv => (qs.field_translator.build kv.1, kv.2))) :=
      (alookup_eq_none_iff _ _).mp hnone2
    have hfound : (qs.whereGroups.any
        (fun g => !g.isEmpty && g.contains "language_code")) = false := by
      simp only [List.any_eq_false, Bool.and_eq_true, Bool.not_eq_true',
        not_and]
      intro g hg _
      simpa using hgroups g hg
    simp only [QS.get, QS._translate, if_neg hmem, hfound, QS.language,
      QS.filter, Bool.false_eq_true, if_false]

/-- C6, witness: `get(language_code="de")` under ambient language `en`
scopes to `de` and strips the keyword; the amended theorem applied
concretely. -/
theorem get_language_scoping_witness :
    ((QS.init ["name"] ["title", "language_code", "master"] (some 0)).get
        "en" [] [("language_code", Val.v "de")]).1.languageCode
      = some (Val.v "de") ∧
    "language_code" ∉ keys ((QS.init ["name"]
        ["title", "language_code", "master"] (some 0)).get
        "en" [] [("language_code", Val.v "de")]).2.2 :=
  (get_language_scoping (QS.init ["name"] ["title", "language_code", "master"]
      (some 0)) "en" [] [("language_code", Val.v "de")] (by decide)).1
    (Val.v "de") (by decide) (by decide)

/-! ## Claim C7 — explicitly unsupported operations -/

/-- C7: for every argument list, each of the fourteen explicitly
unsupported operations raises the unsupported-operation error
(`NotImplementedError`) immediately. -/
theorem unsupported_ops_raise :
    ∀ (qs : QS) (vargs : List Val) (kwargs : List (String × Val))
      (fields : List String) (fn : Option String) (ids : List Nat)
      (qargs : List QTree) (fo : QTree) (fname kind ord : String),
      qs.aggregate vargs kwargs = .error "NotImplementedError" ∧
      qs.latest fn = .error "NotImplementedError" ∧
      qs.in_bulk ids = .error "NotImplementedError" ∧
      qs.delete = .error "NotImplementedError" ∧
      qs.update kwargs = .error "NotImplementedError" ∧
      qs.values fields = .error "NotImplementedError" ∧
      qs.values_list fields kwargs = .error "NotImplementedError" ∧
      qs.dates fname kind ord = .error "NotImplementedError" ∧
      qs.exclude qargs kwargs = .error "NotImplementedError" ∧
      qs.complex_filter fo = .error "NotImplementedError" ∧
      qs.annotate vargs kwargs = .error "NotImplementedError" ∧
      qs.reverse = .error "NotImplementedError" ∧
      qs.defer fields = .error "NotImplementedError" ∧
      qs.only fields = .error "NotImplementedError" := by
  intros
  exact ⟨rfl, rfl, rfl, rfl, rfl, rfl, rfl, rfl, rfl, rfl, rfl, rfl, rfl, rfl⟩

/-! ## Claim C8 — cloning -/

/-- C8: cloning propagates the cached field-name list, the field translator
(the same cache, not rebuilt — the base clone alone resets it to `None`, as
the last conjunct shows), the language scope and the linked shared-record
manager reference; the base clone's query state (WHERE tree, select-related
paths) is reused unchanged. -/
theorem clone_propagates_state (qs : QS) :
    (qs._clone).localFieldNames = qs.localFieldNames ∧
    (qs._clone).fieldTranslator = qs.fieldTranslator ∧
    (qs._clone).languageCode = qs.languageCode ∧
    (qs._clone).realManager = qs.realManager ∧
    (qs._clone).whereGroups = qs.whereGroups ∧
    (qs._clone).selectRelated = qs.selectRelated ∧
    (qs.baseClone).fieldTranslator = none :=
  ⟨rfl, rfl, rfl, rfl, rfl, rfl, rfl⟩

/-! ## Claim C9 — iteration -/

/-- C9: iterating a queryset whose underlying executor yields `rows` yields
exactly as many Combined Instances, and the one at every position is the
`combine` of the underlying row at that same position (the executor's
order). -/
theorem iter_yields_combined (db : DB) (rows : List (List (String × Val))) :
    (QS.iter db rows).length = rows.length ∧
    ∀ i : Nat, (QS.iter db rows).get? i = (rows.get? i).map (combine db) := by
  constructor
  · exact List.length_map rows (combine db)
  · intro i
    simp only [QS.iter, List.get?_eq_getElem?, List.getElem?_map]

/-! ## Claim C10 — subscript access -/

/-- C10, counterexample.  An uncached subscript DOES apply the combine
step: the base `__getitem__` evaluates a limited clone of the same mixin
class, whose iteration is the overridden, combining one — so `qs[0]` on a
fresh queryset returns the Combined Instance of the row, not the raw
row. -/
theorem getitem_raw_counterexample :
    QS.getitem ⟨1, [(0, [("name", Val.v "X")])], []⟩ none
        [[("master", Val.ref 0)]] 0
      = some [("name", Val.v "X"), ("master", Val.ref 0)] ∧
    some ([("name", Val.v "X"), ("master", Val.ref 0)] : List (String × Val))
      ≠ some [("master", Val.ref 0)] := by
  decide

/-- C10 (amended): indexing an unevaluated (uncached) Query Builder applies
the combine step — the base subscript evaluates the limited clone through
the overridden iterator — and so returns exactly what iteration yields at
that position, the Combined Instance of the underlying row; only a
subscript served from an already-populated result cache returns the cached
raw row unmodified. -/
theorem getitem_dispatches_iter :
    (∀ (db : DB) (rows : List (List (String × Val))) (item : Nat),
      QS.getitem db none rows item = (QS.iter db rows).get? item ∧
      QS.getitem db none rows item = (rows.get? item).map (combine db)) ∧
    (∀ (db : DB) (c rows : List (List (String × Val))) (item : Nat),
      QS.getitem db (some c) rows item = c.get? item) := by
  refine ⟨fun db rows item => ⟨rfl, ?_⟩, fun db c rows item => rfl⟩
  simp only [QS.getitem, QS.iter, List.get?_eq_getElem?, List.getElem?_map]

end Nani
